import Mathlib

/-!
Shallow embedding of the hnsd light-client verification kernel
(src/header.c and src/proof.c) and proofs about it.

Bytes are modelled as `Nat` (well-formedness `< 256` is carried as
hypotheses where a claim needs it), machine integers as `Nat`/`Int`
with explicit truncation, buffers as `List Nat`, and fallible C
functions as `Option`/`Except` returns.  The BLAKE2b primitive and the
Cuckoo-cycle verifier are external collaborators of the repository and
are passed in as abstract functions.
-/

/-- Error/status codes of the kernel.  The repository's errors.h is not
part of src/; per the spec (section 7) the codes form a small closed
enum, which we model as an inductive type.  Constructor names map to
the C constants: success = HSK_SUCCESS, proofOk = HSK_EPROOFOK,
hashMismatch = HSK_EHASHMISMATCH, earlyEnd = HSK_EEARLYEND,
noResult = HSK_ENORESULT, unexpectedNode = HSK_EUNEXPECTEDNODE,
invalidNode = HSK_EINVALIDNODE, malformedNode = HSK_EMALFORMEDNODE,
encodingErr = HSK_EENCODING, badArgs = HSK_EBADARGS,
noMem = HSK_ENOMEM. -/
inductive HStatus where
  | success
  | proofOk
  | hashMismatch
  | earlyEnd
  | noResult
  | unexpectedNode
  | invalidNode
  | malformedNode
  | encodingErr
  | badArgs
  | noMem
deriving DecidableEq, Repr

/-! ## Byte codec (bio.h writers/readers used by header.c)

Writers produce the emitted bytes; all multi-byte integers are
little-endian.  Readers consume a cursor modelled as the remaining
byte list and return the value together with the rest of the input. -/

/-- write_u8: one byte (uint8_t truncation). -/
def write_u8 (x : Nat) : List Nat := [x % 256]

/-- write_u32: four little-endian bytes. -/
def write_u32 (x : Nat) : List Nat :=
  [x % 256, x / 256 % 256, x / 2 ^ 16 % 256, x / 2 ^ 24 % 256]

/-- write_u64: eight little-endian bytes. -/
def write_u64 (x : Nat) : List Nat :=
  [x % 256, x / 256 % 256, x / 2 ^ 16 % 256, x / 2 ^ 24 % 256,
   x / 2 ^ 32 % 256, x / 2 ^ 40 % 256, x / 2 ^ 48 % 256, x / 2 ^ 56 % 256]

/-- write_bytes(data, buf, n): copies exactly n bytes of the buffer. -/
def write_bytes (b : List Nat) (n : Nat) : List Nat := b.take n

/-- read_u8. -/
def read_u8 : List Nat → Option (Nat × List Nat)
  | [] => none
  | b :: r => some (b, r)

/-- read_u32 (little-endian). -/
def read_u32 : List Nat → Option (Nat × List Nat)
  | b0 :: b1 :: b2 :: b3 :: r =>
      some (b0 + 256 * b1 + 2 ^ 16 * b2 + 2 ^ 24 * b3, r)
  | _ => none

/-- read_u64 (little-endian). -/
def read_u64 : List Nat → Option (Nat × List Nat)
  | b0 :: b1 :: b2 :: b3 :: b4 :: b5 :: b6 :: b7 :: r =>
      some (b0 + 256 * b1 + 2 ^ 16 * b2 + 2 ^ 24 * b3 + 2 ^ 32 * b4 +
            2 ^ 40 * b5 + 2 ^ 48 * b6 + 2 ^ 56 * b7, r)
  | _ => none

/-- read_bytes: a short read fails the operation. -/
def read_bytes (n : Nat) (l : List Nat) : Option (List Nat × List Nat) :=
  if n ≤ l.length then some (l.take n, l.drop n) else none

/-- read_sol: reads sol_size little-endian u32 solution words (the
word-by-word branch of read_sol in header.c; the HSK_LITTLE_ENDIAN
branch reads the same bytes in one block). -/
def read_sol : Nat → List Nat → Option (List Nat × List Nat)
  | 0, l => some ([], l)
  | k + 1, l =>
    match read_u32 l with
    | none => none
    | some (w, r) =>
      match read_sol k r with
      | none => none
      | some (ws, r') => some (w :: ws, r')

/-! ## Header record (header.c) -/

/-- The serialized fields of hsk_header_t.  Derived state (hash cache,
height, work, next link) is handled separately by the work
accumulator. -/
structure HskHeader where
  version : Nat
  prev_block : List Nat
  merkle_root : List Nat
  witness_root : List Nat
  trie_root : List Nat
  time : Nat
  bits : Nat
  nonce : List Nat
  sol_size : Nat
  sol : List Nat
deriving DecidableEq, Repr

/-- write_sol: serializes sol_size little-endian u32 solution words. -/
def write_sol (sol : List Nat) (sol_size : Nat) : List Nat :=
  (sol.take sol_size).flatMap write_u32

/-- encode_sol (header.c): the solution words as a contiguous byte
array. -/
def encode_sol (sol : List Nat) (sol_size : Nat) : List Nat :=
  write_sol sol sol_size

/-- hsk_header_write, with a real sink: the emitted byte string.  The
C function also returns the byte count, which is the length of this
list. -/
def hsk_header_write (hdr : HskHeader) : List Nat :=
  write_u32 hdr.version ++
  write_bytes hdr.prev_block 32 ++
  write_bytes hdr.merkle_root 32 ++
  write_bytes hdr.witness_root 32 ++
  write_bytes hdr.trie_root 32 ++
  write_u64 hdr.time ++
  write_u32 hdr.bits ++
  write_bytes hdr.nonce 16 ++
  write_u8 hdr.sol_size ++
  write_sol hdr.sol hdr.sol_size

/-- hsk_encode_header is hsk_header_write with a concrete buffer. -/
def hsk_encode_header (hdr : HskHeader) : List Nat := hsk_header_write hdr

/-- hsk_header_size: hsk_header_write with a NULL sink.  Each writer
then returns only its byte count (write_u32 returns 4, write_bytes
returns its size argument, write_u8 returns 1, write_sol returns
sol_size << 2), so the total is the sum of the field widths. -/
def hsk_header_size (hdr : HskHeader) : Nat :=
  4 + 32 + 32 + 32 + 32 + 8 + 4 + 16 + 1 + 4 * hdr.sol_size

/-- hsk_header_write_pre: every field except sol_size and sol. -/
def hsk_header_write_pre (hdr : HskHeader) : List Nat :=
  write_u32 hdr.version ++
  write_bytes hdr.prev_block 32 ++
  write_bytes hdr.merkle_root 32 ++
  write_bytes hdr.witness_root 32 ++
  write_bytes hdr.trie_root 32 ++
  write_u64 hdr.time ++
  write_u32 hdr.bits ++
  write_bytes hdr.nonce 16

/-- hsk_header_encode_pre. -/
def hsk_header_encode_pre (hdr : HskHeader) : List Nat :=
  hsk_header_write_pre hdr

/-- hsk_header_read: field-by-field deserialization; enforces
sol_size ≤ 42 (header.c line 255). -/
def hsk_header_read (l : List Nat) : Option (HskHeader × List Nat) :=
  match read_u32 l with
  | none => none
  | some (version, l) =>
  match read_bytes 32 l with
  | none => none
  | some (prev_block, l) =>
  match read_bytes 32 l with
  | none => none
  | some (merkle_root, l) =>
  match read_bytes 32 l with
  | none => none
  | some (witness_root, l) =>
  match read_bytes 32 l with
  | none => none
  | some (trie_root, l) =>
  match read_u64 l with
  | none => none
  | some (time, l) =>
  match read_u32 l with
  | none => none
  | some (bits, l) =>
  match read_bytes 16 l with
  | none => none
  | some (nonce, l) =>
  match read_u8 l with
  | none => none
  | some (sol_size, l) =>
  if sol_size > 42 then none
  else
    match read_sol sol_size l with
    | none => none
    | some (sol, l) =>
      some ({ version := version, prev_block := prev_block,
              merkle_root := merkle_root, witness_root := witness_root,
              trie_root := trie_root, time := time, bits := bits,
              nonce := nonce, sol_size := sol_size, sol := sol }, l)

/-- hsk_header_decode: hsk_header_read on a fresh cursor (surplus
trailing bytes are allowed, as in the C). -/
def hsk_header_decode (l : List Nat) : Option HskHeader :=
  (hsk_header_read l).map Prod.fst

/-! ## Compact difficulty codec and PoW verifier (header.c) -/

/-- The write loop of hsk_pow_to_target: `while (mantissa && i >= 0)
target[i--] = mantissa, mantissa >>= 8`.  The descending indices
31-shift, 30-shift, ..., 0 are supplied as a list; the function
returns the written target together with the mantissa remaining when
the index underflows (nonzero remainder = overflow). -/
def pow_write_loop : List Nat → Nat → List Nat → List Nat × Nat
  | [], m, t => (t, m)
  | i :: is, m, t =>
    if m = 0 then (t, 0)
    else pow_write_loop is (m / 256) (t.set i (m % 256))

/-- hsk_pow_to_target: decode compact bits into a 32-byte big-endian
target.  Returns none where the C returns false (zero bits, sign bit
set, or mantissa overflow past index 0). -/
def hsk_pow_to_target (bits : Nat) : Option (List Nat) :=
  if bits = 0 then none
  else if bits / 2 ^ 23 % 2 = 1 then none
  else
    let exponent := bits / 2 ^ 24
    let mantissa := bits % 2 ^ 23
    let mantissa' := if exponent ≤ 3 then mantissa / 2 ^ (8 * (3 - exponent)) else mantissa
    let shift := if exponent ≤ 3 then 0 else (exponent - 3) % 32
    -- i runs from 31 - shift down to 0
    let r := pow_write_loop ((List.range (32 - shift)).reverse) mantissa' (List.replicate 32 0)
    if r.2 ≠ 0 then none else some r.1

/-- hsk_pow_to_bits: re-encode a 32-byte big-endian target as compact
bits.  i is the index of the first non-zero byte (32 if none);
exponent = 32 - i.  For exponent > 3 the C loop
`for (; i < 31 - shift; i++) mantissa = (mantissa << 8) | target[i]`
accumulates the bytes at indices i .. 30-shift.  Returns none where
the C returns false (mantissa collides with the sign bit). -/
def hsk_pow_to_bits (target : List Nat) : Option Nat :=
  let i := target.findIdx (· ≠ 0)
  let exponent := 32 - i
  if exponent = 0 then some 0
  else
    let mantissa :=
      if exponent ≤ 3 then
        (match exponent with
         | 3 => target.getD 29 0 * 2 ^ 16 + target.getD 30 0 * 2 ^ 8 + target.getD 31 0
         | 2 => target.getD 30 0 * 2 ^ 8 + target.getD 31 0
         | _ => target.getD 31 0) * 2 ^ (8 * (3 - exponent))
      else
        let shift := exponent - 3
        (List.range (31 - shift - i)).foldl (fun m j => m * 256 + target.getD (i + j) 0) 0
    if mantissa.testBit 23 then none
    else some (exponent * 2 ^ 24 + mantissa)

/-- rcmp's comparison loop over the visited pairs
(a[size-1], b[0]), (a[size-2], b[1]), ... -/
def rcmp_go : List (Nat × Nat) → Int
  | [] => 0
  | (x, y) :: r => if x < y then -1 else if y < x then 1 else rcmp_go r

/-- rcmp (header.c): reverse byte compare, walking a from index
size-1 downward and b from index 0 upward. -/
def rcmp (a b : List Nat) (size : Nat) : Int :=
  rcmp_go (((a.take size).reverse).zip (b.take size))

/-- Value of a byte string read as a big-endian integer. -/
def beNat (l : List Nat) : Nat := l.foldl (fun acc b => acc * 256 + b) 0

/-- Value of a byte string read as a little-endian integer. -/
def leNat (l : List Nat) : Nat := beNat l.reverse

/-- Result of hsk_header_verify_pow.  The Cuckoo verifier's return
code (0 = valid) is propagated unchanged inside the cuckoo
constructor; negTarget = HSK_NEGTARGET, highHash = HSK_HIGHHASH. -/
inductive PowStatus where
  | negTarget
  | highHash
  | cuckoo (code : Int)
deriving DecidableEq, Repr

/-- hsk_header_verify_pow.  B is the BLAKE2b-256 collaborator and CK
the Cuckoo-cycle verifier (taking the pre-PoW serialization and the
solution words), both external to the repository. -/
def hsk_header_verify_pow (B : List Nat → List Nat)
    (CK : List Nat → List Nat → Int) (hdr : HskHeader) : PowStatus :=
  match hsk_pow_to_target hdr.bits with
  | none => .negTarget
  | some target =>
    let solhash := B (encode_sol hdr.sol hdr.sol_size)
    if rcmp solhash target 32 > 0 then .highHash
    else .cuckoo (CK (hsk_header_encode_pre hdr) (hdr.sol.take hdr.sol_size))

/-! ## Work accumulator (header.c)

Modelled from the spec: the bignum collaborator (bn.h, not under
src/) provides construction from a 32-byte big-endian array,
left-shift, increment, addition, division and conversion back to a
32-byte big-endian array; per the spec the arithmetic is on
unbounded/256-bit unsigned integers, so we use Nat, with the
to-array conversion keeping the low 32 bytes. -/

/-- Modelled from the spec: bignum_from_array on a 32-byte big-endian
array (bn.h is not under src/). -/
def bignum_from_array (l : List Nat) : Nat := beNat l

/-- Big-endian byte expansion: natToBE k n is the k low-order bytes
of n, most significant first. -/
def natToBE : Nat → Nat → List Nat
  | 0, _ => []
  | k + 1, n => natToBE k (n / 256) ++ [n % 256]

/-- Modelled from the spec: bignum_to_array into a 32-byte big-endian
array (bn.h is not under src/); keeps the value's low 32 bytes. -/
def bignum_to_array (n : Nat) : List Nat := natToBE 32 n

/-- hsk_header_get_proof: the per-header proof weight
(1 << 256) / (target + 1), as a 32-byte big-endian array. -/
def hsk_header_get_proof (hdr : HskHeader) : Option (List Nat) :=
  match hsk_pow_to_target hdr.bits with
  | none => none
  | some target => some (bignum_to_array (2 ^ 256 / (bignum_from_array target + 1)))

/-- hsk_header_calc_work: the header's cumulative work; prev = none is
the genesis case, otherwise the previous header's 32-byte work is
added. -/
def hsk_header_calc_work (hdr : HskHeader) (prev_work : Option (List Nat)) :
    Option (List Nat) :=
  match prev_work with
  | none => hsk_header_get_proof hdr
  | some w =>
    match hsk_header_get_proof hdr with
    | none => none
    | some proof =>
      some (bignum_to_array (bignum_from_array w + bignum_from_array proof))

/-! ## Trie node codec and proof walker (proof.c) -/

/-- to_nibbles: expand data_len bytes into 2*data_len+1 nibbles
(high half, low half per byte) with a trailing terminator nibble 16. -/
def to_nibbles (data : List Nat) : List Nat :=
  data.flatMap (fun b => [b / 16, b % 16]) ++ [16]

/-- decompress: strip the compressed short-node key header.  For empty
input the result is empty; otherwise with nib = to_nibbles data the C
sets pos = 2 (or 1 when nib[0] & 1), len = nib_len - 1 (plus 1 when
nib[0] & 2) and copies nib[pos..len) to the front — i.e. the result is
that slice of the nibble expansion. -/
def decompress (data : List Nat) : List Nat :=
  match data with
  | [] => []
  | d :: _ =>
    let nib := to_nibbles data
    let pos := if (d / 16) % 2 = 1 then 1 else 2
    let len := (nib.length - 1) + (if (d / 16) / 2 % 2 = 1 then 1 else 0)
    (nib.drop pos).take (len - pos)

/-- Truncation of an unsigned value to a signed 32-bit integer, the
(wrapping) result of assembling `data[4] << 24 | ...` into an int32_t
in read_varint. -/
def toInt32 (n : Nat) : Int :=
  if n % 2 ^ 32 < 2 ^ 31 then (n % 2 ^ 32 : Nat) else (n % 2 ^ 32 : Nat) - 2 ^ 32

/-- read_varint: the canonical three-form variable-length integer.
Returns (consumed length, value); the value is an int32_t in the C, so
the 0xfe form assembles its four little-endian bytes with int32
wraparound before the canonicality comparison `v <= 0xffff`. -/
def read_varint (data : List Nat) : Except HStatus (Nat × Int) :=
  match data with
  | [] => .error .encodingErr
  | b :: rest =>
    if b = 0xff then .error .encodingErr
    else if b = 0xfe then
      match rest with
      | b1 :: b2 :: b3 :: b4 :: _ =>
        let v := toInt32 (b1 + 256 * b2 + 2 ^ 16 * b3 + 2 ^ 24 * b4)
        if v ≤ 0xffff then .error .encodingErr else .ok (5, v)
      | _ => .error .encodingErr
    else if b = 0xfd then
      match rest with
      | b1 :: b2 :: _ =>
        let v : Int := (b1 + 256 * b2 : Nat)
        if v < 0xfd then .error .encodingErr else .ok (3, v)
      | _ => .error .encodingErr
    else .ok (1, (b : Int))

/-- read_varbytes: a varint length n followed by n raw bytes; returns
the blob and the rest of the input (the light/full distinction of the
C is ownership only). -/
def read_varbytes (data : List Nat) : Except HStatus (List Nat × List Nat) :=
  match read_varint data with
  | .error e => .error e
  | .ok (varlen, v) =>
    let n := v.toNat
    let rest := data.drop varlen
    if rest.length < n then .error .encodingErr
    else .ok (rest.take n, rest.drop n)

/-- Modelled from the spec: the node tag constants of proof.h (not
under src/).  The spec fixes NULL at tag 0 and requires the others to
be distinct. -/
def HSK_NULLNODE : Nat := 0

/-- Modelled from the spec: HASH node tag (proof.h not under src/). -/
def HSK_HASHNODE : Nat := 1

/-- Modelled from the spec: SHORT node tag (proof.h not under src/). -/
def HSK_SHORTNODE : Nat := 2

/-- Modelled from the spec: FULL node tag (proof.h not under src/). -/
def HSK_FULLNODE : Nat := 3

/-- Modelled from the spec: VALUE node tag (proof.h not under src/). -/
def HSK_VALUENODE : Nat := 4

/-- Trie node variants.  A C NULL node pointer (the empty slot the
parser yields for a NULL tag) is modelled as the nullnode
constructor; full nodes carry their 17 children as a list. -/
inductive HNode where
  | nullnode
  | hashnode (data : List Nat)
  | shortnode (key : List Nat) (child : HNode)
  | fullnode (children : List HNode)
  | valuenode (data : List Nat)
deriving Repr

/-- Structural size of a node, used as fuel for next_child's
descent. -/
def hnodeSize : HNode → Nat
  | .nullnode => 1
  | .hashnode _ => 1
  | .valuenode _ => 1
  | .shortnode _ c => 1 + hnodeSize c
  | .fullnode cs => 1 + hnodeListSize cs
where hnodeListSize : List HNode → Nat
  | [] => 1
  | c :: cs => hnodeSize c + hnodeListSize cs

/-- hsk_parse_node's recursion, with fuel.  Every recursive call is on
input at least one byte shorter (the tag byte is consumed first), so
fuel = data.length + 1 never exhausts; the fuel-0 branch is an
unreachable guard (see parse_go_fuel_irrel).  The C parses a FULL
node's 17 children in a sequential loop, unrolled here. -/
def parse_go : Nat → List Nat → Except HStatus (HNode × List Nat)
  | 0, _ => .error .noMem
  | fuel + 1, data =>
    match data with
    | [] => .error .malformedNode
    | t :: d =>
      if t = HSK_NULLNODE then .ok (.nullnode, d)
      else if t = HSK_HASHNODE then
        if d.length < 32 then .error .malformedNode
        else .ok (.hashnode (d.take 32), d.drop 32)
      else if t = HSK_SHORTNODE then
        match read_varbytes d with
        | .error e => .error e
        | .ok (out, rest) =>
          let dec := decompress out
          match parse_go fuel rest with
          | .error e => .error e
          | .ok (child, rest') => .ok (.shortnode dec child, rest')
      else if t = HSK_FULLNODE then
        match parse_go fuel d with
        | .error e => .error e
        | .ok (c0, d) =>
        match parse_go fuel d with
        | .error e => .error e
        | .ok (c1, d) =>
        match parse_go fuel d with
        | .error e => .error e
        | .ok (c2, d) =>
        match parse_go fuel d with
        | .error e => .error e
        | .ok (c3, d) =>
        match parse_go fuel d with
        | .error e => .error e
        | .ok (c4, d) =>
        match parse_go fuel d with
        | .error e => .error e
        | .ok (c5, d) =>
        match parse_go fuel d with
        | .error e => .error e
        | .ok (c6, d) =>
        match parse_go fuel d with
        | .error e => .error e
        | .ok (c7, d) =>
        match parse_go fuel d with
        | .error e => .error e
        | .ok (c8, d) =>
        match parse_go fuel d with
        | .error e => .error e
        | .ok (c9, d) =>
        match parse_go fuel d with
        | .error e => .error e
        | .ok (c10, d) =>
        match parse_go fuel d with
        | .error e => .error e
        | .ok (c11, d) =>
        match parse_go fuel d with
        | .error e => .error e
        | .ok (c12, d) =>
        match parse_go fuel d with
        | .error e => .error e
        | .ok (c13, d) =>
        match parse_go fuel d with
        | .error e => .error e
        | .ok (c14, d) =>
        match parse_go fuel d with
        | .error e => .error e
        | .ok (c15, d) =>
        match parse_go fuel d with
        | .error e => .error e
        | .ok (c16, d) =>
          .ok (.fullnode [c0, c1, c2, c3, c4, c5, c6, c7, c8, c9,
                          c10, c11, c12, c13, c14, c15, c16], d)
      else if t = HSK_VALUENODE then
        match read_varbytes d with
        | .error e => .error e
        | .ok (out, rest) => .ok (.valuenode out, rest)
      else .error .malformedNode

/-- hsk_parse_node: parse one node from a blob; surplus trailing bytes
are returned to the caller (ignored at the walker's top-level call). -/
def hsk_parse_node (data : List Nat) : Except HStatus HNode :=
  (parse_go (data.length + 1) data).map Prod.fst

/-- next_child's loop, with fuel.  Every iteration either returns or
moves to a strict subnode, so fuel = hnodeSize of the node never
exhausts; the fuel-0 branch is an unreachable guard (see
next_child_go_fuel_irrel).  k is the 65 expanded key nibbles, p the
current nibble offset (int32_t in the C: set to -1 on
termination). -/
def next_child_go : Nat → HNode → List Nat → Int → HStatus × HNode × Int
  | 0, node, _, p => (.noMem, node, p)
  | fuel + 1, node, k, p =>
    if 65 - p > 0 then
      match node with
      | .nullnode => (.success, .nullnode, -1)
      | .shortnode key child =>
        if 65 - p < (key.length : Int) ∨ (k.drop p.toNat).take key.length ≠ key then
          (.success, .nullnode, -1)
        else
          next_child_go fuel child k (p + key.length)
      | .fullnode cs =>
        next_child_go fuel (cs.getD (k.getD p.toNat 0) .nullnode) k (p + 1)
      | .hashnode d => (.success, .hashnode d, p)
      | .valuenode v => (.unexpectedNode, .valuenode v, p)
    else
      match node with
      | .valuenode v => (.success, .valuenode v, -1)
      | _ => (.success, .nullnode, -1)

/-- next_child: descend from a parsed node along the key nibbles until
an unexplored edge (HASH stub), a value, or an absence is reached. -/
def next_child (node : HNode) (k : List Nat) (p : Int) :
    HStatus × HNode × Int :=
  next_child_go (hnodeSize node) node k p

/-- The outer loop of hsk_verify_proof over the ordered blob list.
B is the BLAKE2b-256 collaborator, k the expanded key nibbles, h the
currently expected commitment, p the nibble offset.  The returned
option is the value out-parameter (none = the NULL/0 written on
entry). -/
def verify_loop (B : List Nat → List Nat) (k : List Nat) :
    List (List Nat) → List Nat → Int → HStatus × Option (List Nat)
  | [], _, _ => (.noResult, none)
  | c :: rest, h, p =>
    if B c ≠ h then (.hashMismatch, none)
    else
      match hsk_parse_node c with
      | .error e => (e, none)
      | .ok node =>
        match next_child node k p with
        | (.success, node', p') =>
          match node' with
          | .nullnode => if rest.isEmpty then (.proofOk, none) else (.earlyEnd, none)
          | .hashnode d => verify_loop B k rest d p'
          | .valuenode v =>
            if rest.isEmpty then (.proofOk, some v) else (.earlyEnd, none)
          | _ => (.invalidNode, none)
        | (e, _, _) => (e, none)

/-- hsk_verify_proof: verify an inclusion/absence proof for a 32-byte
key against a trusted root.  The C reads exactly 32 key bytes into the
nibble expansion. -/
def hsk_verify_proof (B : List Nat → List Nat) (root key : List Nat)
    (nodes : List (List Nat)) : HStatus × Option (List Nat) :=
  verify_loop B (to_nibbles (key.take 32)) nodes root 0

/-! ## Helper lemmas: byte codec round-trips -/

theorem read_u8_write (x : Nat) (r : List Nat) (h : x < 256) :
    read_u8 (write_u8 x ++ r) = some (x, r) := by
  simp [read_u8, write_u8, Nat.mod_eq_of_lt h]

theorem read_u32_write (x : Nat) (r : List Nat) (h : x < 2 ^ 32) :
    read_u32 (write_u32 x ++ r) = some (x, r) := by
  simp only [read_u32, write_u32, List.cons_append, List.nil_append]
  congr 1
  congr 1
  omega

theorem read_u64_write (x : Nat) (r : List Nat) (h : x < 2 ^ 64) :
    read_u64 (write_u64 x ++ r) = some (x, r) := by
  simp only [read_u64, write_u64, List.cons_append, List.nil_append]
  congr 1
  congr 1
  omega

theorem read_write_bytes (l : List Nat) (n : Nat) (r : List Nat)
    (h : l.length = n) : read_bytes n (write_bytes l n ++ r) = some (l, r) := by
  subst h
  simp [read_bytes, write_bytes, List.take_left, List.drop_left]

theorem read_sol_write (ws : List Nat) (r : List Nat)
    (h : ∀ w ∈ ws, w < 2 ^ 32) :
    read_sol ws.length (write_sol ws ws.length ++ r) = some (ws, r) := by
  induction ws with
  | nil => simp [read_sol, write_sol]
  | cons w ws ih =>
    have hw : w < 2 ^ 32 := h w (by simp)
    have hws : ∀ x ∈ ws, x < 2 ^ 32 := fun x hx => h x (by simp [hx])
    have step := ih hws
    simp only [write_sol, List.take_length] at step ⊢
    simp only [List.length_cons, List.take_succ_cons, List.flatMap_cons,
      read_sol, List.append_assoc]
    rw [read_u32_write w _ hw]
    simp only [List.take_length] at *
    rw [step]

/-- C5: decode(encode(h)) = h for any well-formed header with
sol_size ≤ 42.  The well-formedness hypotheses state exactly the C
struct's field widths: u32/u64 ranges, 32-byte roots, 16-byte nonce,
u8 sol_size, and sol holding sol_size u32 words. -/
theorem header_decode_encode (h : HskHeader)
    (hv : h.version < 2 ^ 32)
    (hp : h.prev_block.length = 32)
    (hm : h.merkle_root.length = 32)
    (hw : h.witness_root.length = 32)
    (ht : h.trie_root.length = 32)
    (htime : h.time < 2 ^ 64)
    (hb : h.bits < 2 ^ 32)
    (hn : h.nonce.length = 16)
    (hs : h.sol_size ≤ 42)
    (hsl : h.sol.length = h.sol_size)
    (hsw : ∀ w ∈ h.sol, w < 2 ^ 32) :
    hsk_header_decode (hsk_encode_header h) = some h := by
  obtain ⟨v, pb, mr, wr, tr, ti, bi, no, ss, so⟩ := h
  simp only at hv hp hm hw ht htime hb hn hs hsl hsw
  have hss : ss < 256 := by omega
  simp only [hsk_header_decode, hsk_encode_header, hsk_header_write,
    hsk_header_read, List.append_assoc]
  rw [show write_sol so ss = write_sol so ss ++ [] by simp]
  simp only [read_u32_write _ _ hv, read_write_bytes _ _ _ hp,
    read_write_bytes _ _ _ hm, read_write_bytes _ _ _ hw,
    read_write_bytes _ _ _ ht, read_u64_write _ _ htime,
    read_u32_write _ _ hb, read_write_bytes _ _ _ hn,
    read_u8_write _ _ hss, if_neg (by omega : ¬ ss > 42),
    hsl ▸ read_sol_write so [] hsw]
  rfl

/-- C5 witness: a concrete well-formed header round-trips. -/
theorem header_decode_encode_witness :
    hsk_header_decode (hsk_encode_header
      { version := 1, prev_block := List.replicate 32 2,
        merkle_root := List.replicate 32 3, witness_root := List.replicate 32 4,
        trie_root := List.replicate 32 5, time := 77, bits := 0x1d00ffff,
        nonce := List.replicate 16 6, sol_size := 2, sol := [10, 11] }) =
    some { version := 1, prev_block := List.replicate 32 2,
           merkle_root := List.replicate 32 3, witness_root := List.replicate 32 4,
           trie_root := List.replicate 32 5, time := 77, bits := 0x1d00ffff,
           nonce := List.replicate 16 6, sol_size := 2, sol := [10, 11] } :=
  header_decode_encode _ (by norm_num) (by simp) (by simp) (by simp) (by simp)
    (by norm_num) (by norm_num) (by simp) (by norm_num) (by simp) (by decide)

theorem write_sol_length (ws : List Nat) (n : Nat) (h : ws.length = n) :
    (write_sol ws n).length = 4 * n := by
  subst h
  induction ws with
  | nil => simp [write_sol]
  | cons w ws ih =>
    simp only [write_sol, List.take_length] at ih ⊢
    simp [List.flatMap_cons, write_u32, ih]
    omega

/-- C6 amended: the serialized header occupies 161 + 4·sol_size
bytes (not 236 + 4·sol_size): the field widths 4 + 32 + 32 + 32 + 32 +
8 + 4 + 16 + 1 sum to 161.  hsk_header_size (the null-sink byte
count) agrees with the length of the emitted bytes. -/
theorem header_size_eq (h : HskHeader)
    (hp : h.prev_block.length = 32)
    (hm : h.merkle_root.length = 32)
    (hw : h.witness_root.length = 32)
    (ht : h.trie_root.length = 32)
    (hn : h.nonce.length = 16)
    (hsl : h.sol.length = h.sol_size) :
    hsk_header_size h = 161 + 4 * h.sol_size ∧
    (hsk_encode_header h).length = hsk_header_size h := by
  constructor
  · simp [hsk_header_size]
  · simp only [hsk_encode_header, hsk_header_write, hsk_header_size,
      List.length_append, write_u32, write_u64, write_u8, write_bytes,
      List.length_take, hp, hm, hw, ht, hn,
      write_sol_length h.sol h.sol_size hsl]
    simp

/-- C6 witness: the size identities at a concrete header. -/
theorem header_size_eq_witness :
    hsk_header_size
      { version := 1, prev_block := List.replicate 32 2,
        merkle_root := List.replicate 32 3, witness_root := List.replicate 32 4,
        trie_root := List.replicate 32 5, time := 77, bits := 0x1d00ffff,
        nonce := List.replicate 16 6, sol_size := 2, sol := [10, 11] } =
      161 + 4 * 2 ∧
    (hsk_encode_header
      { version := 1, prev_block := List.replicate 32 2,
        merkle_root := List.replicate 32 3, witness_root := List.replicate 32 4,
        trie_root := List.replicate 32 5, time := 77, bits := 0x1d00ffff,
        nonce := List.replicate 16 6, sol_size := 2, sol := [10, 11] }).length =
      161 + 4 * 2 :=
  have h := header_size_eq
    { version := 1, prev_block := List.replicate 32 2,
      merkle_root := List.replicate 32 3, witness_root := List.replicate 32 4,
      trie_root := List.replicate 32 5, time := 77, bits := 0x1d00ffff,
      nonce := List.replicate 16 6, sol_size := 2, sol := [10, 11] }
    (by simp) (by simp) (by simp) (by simp) (by simp) (by simp)
  ⟨h.1, h.2.trans h.1⟩

/-- C6 counterexample: a header with sol_size = 0 serializes to 161
bytes, not the claimed 236. -/
theorem header_size_claim_false :
    hsk_header_size
      { version := 1, prev_block := List.replicate 32 0,
        merkle_root := List.replicate 32 0, witness_root := List.replicate 32 0,
        trie_root := List.replicate 32 0, time := 0, bits := 0,
        nonce := List.replicate 16 0, sol_size := 0, sol := [] } = 161 ∧
    (hsk_encode_header
      { version := 1, prev_block := List.replicate 32 0,
        merkle_root := List.replicate 32 0, witness_root := List.replicate 32 0,
        trie_root := List.replicate 32 0, time := 0, bits := 0,
        nonce := List.replicate 16 0, sol_size := 0, sol := [] }).length = 161 ∧
    (161 : Nat) ≠ 236 := by
  refine ⟨by decide, ?_, by decide⟩
  set_option maxRecDepth 4000 in decide

/-! ## Compact-difficulty concrete vectors -/

/-- C7 amended: bits 0x1d00ffff decodes to the target with byte 4 =
0xFF and byte 5 = 0xFF (not bytes 3 and 4), every other byte 0 — the
loop writes the two non-zero mantissa bytes at indices 31 − shift and
31 − shift − 1 for shift = exp − 3 = 26 — and bits 0 is rejected. -/
theorem pow_to_target_vectors :
    hsk_pow_to_target 0x1d00ffff =
      some (List.replicate 4 0 ++ [255, 255] ++ List.replicate 26 0) ∧
    hsk_pow_to_target 0 = none := by
  constructor
  · decide
  · decide

/-- C7 counterexample: the decoded target does not have byte 3 = 0xFF
and byte 4 = 0xFF as the claim states; byte 3 is 0. -/
theorem pow_to_target_claim_false :
    hsk_pow_to_target 0x1d00ffff ≠
      some (List.replicate 3 0 ++ [255, 255] ++ List.replicate 27 0) ∧
    (hsk_pow_to_target 0x1d00ffff).map (fun t => t.getD 3 0) = some 0 := by
  constructor
  · decide
  · decide

/-- C2: the bits → target → bits round-trip fails on the code.  On the
difficulty-1 target (bytes 4 and 5 = 0xFF) hsk_pow_to_bits assembles
only the two bytes at indices i .. 30 − shift into the mantissa (the
loop bound `i < 31 - shift` stops one byte short of the spec's "top
three non-zero bytes"), producing 0x1c00ffff, and hsk_pow_to_target
places that mantissa one byte lower (bytes 5 and 6), so the
round-trip does not reproduce the target. -/
theorem pow_bits_roundtrip_bug :
    hsk_pow_to_bits
      (List.replicate 4 0 ++ [255, 255] ++ List.replicate 26 0) =
      some 0x1c00ffff ∧
    hsk_pow_to_target 0x1c00ffff =
      some (List.replicate 5 0 ++ [255, 255] ++ List.replicate 25 0) ∧
    List.replicate 5 0 ++ [255, 255] ++ List.replicate 25 0 ≠
      List.replicate 4 0 ++ [255, 255] ++ List.replicate 26 0 := by
  refine ⟨by decide, by decide, by decide⟩

/-! ## Work accumulator lemmas -/

theorem beNat_append_singleton (l : List Nat) (b : Nat) :
    beNat (l ++ [b]) = beNat l * 256 + b := by
  simp [beNat, List.foldl_append]

theorem beNat_natToBE (k n : Nat) : beNat (natToBE k n) = n % 256 ^ k := by
  induction k generalizing n with
  | zero => simp [natToBE, beNat, Nat.mod_one]
  | succ k ih =>
    rw [natToBE, beNat_append_singleton, ih]
    rw [pow_succ, Nat.mul_comm (256 ^ k) 256, Nat.mod_mul]
    omega

/-- C10 amended: for a header whose bits decode to a target t, the
proof weight emitted by hsk_header_get_proof is the 32-byte big-endian
encoding of floor(2^256 / (value(t) + 1)) reduced mod 2^256 — equal
to the floor itself whenever the target is non-zero (for the zero
target the floor is 2^256, which does not fit in 32 bytes and is
truncated to 0) — and hsk_header_calc_work stores exactly this weight
when prev is absent, and otherwise the 256-bit truncated big-endian
sum of prev's work and the weight. -/
theorem header_work_spec (hdr : HskHeader) (t : List Nat)
    (ht : hsk_pow_to_target hdr.bits = some t) :
    hsk_header_get_proof hdr =
      some (bignum_to_array (2 ^ 256 / (beNat t + 1))) ∧
    beNat (bignum_to_array (2 ^ 256 / (beNat t + 1))) =
      (2 ^ 256 / (beNat t + 1)) % 2 ^ 256 ∧
    (beNat t ≠ 0 →
      beNat (bignum_to_array (2 ^ 256 / (beNat t + 1))) =
        2 ^ 256 / (beNat t + 1)) ∧
    hsk_header_calc_work hdr none =
      some (bignum_to_array (2 ^ 256 / (beNat t + 1))) ∧
    (∀ w, hsk_header_calc_work hdr (some w) =
      some (bignum_to_array
        (beNat w + (2 ^ 256 / (beNat t + 1)) % 2 ^ 256))) := by
  have h256 : (256 : Nat) ^ 32 = 2 ^ 256 := by norm_num
  have hget : hsk_header_get_proof hdr =
      some (bignum_to_array (2 ^ 256 / (beNat t + 1))) := by
    simp [hsk_header_get_proof, ht, bignum_from_array]
  refine ⟨hget, ?_, ?_, ?_, ?_⟩
  · rw [bignum_to_array, beNat_natToBE, h256]
  · intro h0
    rw [bignum_to_array, beNat_natToBE, h256]
    exact Nat.mod_eq_of_lt (Nat.div_lt_self (by positivity) (by omega))
  · simp [hsk_header_calc_work, hget]
  · intro w
    have hbe : beNat (bignum_to_array (2 ^ 256 / (beNat t + 1))) =
        (2 ^ 256 / (beNat t + 1)) % 2 ^ 256 := by
      rw [bignum_to_array, beNat_natToBE, h256]
    simp only [hsk_header_calc_work, hget, bignum_from_array, hbe]

/-- C10 witness: the work identities at a concrete header (bits
0x03123456, target value 0x123456). -/
theorem header_work_spec_witness :
    hsk_header_get_proof
      { version := 0, prev_block := List.replicate 32 0,
        merkle_root := List.replicate 32 0, witness_root := List.replicate 32 0,
        trie_root := List.replicate 32 0, time := 0, bits := 0x03123456,
        nonce := List.replicate 16 0, sol_size := 0, sol := [] } =
      some (bignum_to_array (2 ^ 256 /
        (beNat (List.replicate 29 0 ++ [0x12, 0x34, 0x56]) + 1))) ∧
    beNat (bignum_to_array (2 ^ 256 /
        (beNat (List.replicate 29 0 ++ [0x12, 0x34, 0x56]) + 1))) =
      2 ^ 256 / (beNat (List.replicate 29 0 ++ [0x12, 0x34, 0x56]) + 1) :=
  have h := header_work_spec
    { version := 0, prev_block := List.replicate 32 0,
      merkle_root := List.replicate 32 0, witness_root := List.replicate 32 0,
      trie_root := List.replicate 32 0, time := 0, bits := 0x03123456,
      nonce := List.replicate 16 0, sol_size := 0, sol := [] }
    (List.replicate 29 0 ++ [0x12, 0x34, 0x56]) (by decide)
  ⟨h.1, h.2.2.1 (by decide)⟩

/-- C10 counterexample: bits 0x01003456 decodes successfully to the
all-zero target, whose proof weight floor(2^256 / (0 + 1)) = 2^256
cannot be written as a 32-byte big-endian integer: the emitted bytes
denote 0, not the floor. -/
theorem header_work_claim_false :
    hsk_pow_to_target 0x01003456 = some (List.replicate 32 0) ∧
    hsk_header_get_proof
      { version := 0, prev_block := List.replicate 32 0,
        merkle_root := List.replicate 32 0, witness_root := List.replicate 32 0,
        trie_root := List.replicate 32 0, time := 0, bits := 0x01003456,
        nonce := List.replicate 16 0, sol_size := 0, sol := [] } =
      some (List.replicate 32 0) ∧
    beNat (List.replicate 32 0) = 0 ∧
    2 ^ 256 / (beNat (List.replicate 32 0) + 1) ≠ 0 := by
  refine ⟨by decide, ?_, by decide, ?_⟩
  · set_option maxRecDepth 8000 in rfl
  · intro h
    rw [show beNat (List.replicate 32 0) = 0 from by decide] at h
    simp at h

/-! ## Varint canonicality -/

/-- C9 amended: read_varint rejects every non-canonical input — a
0xfd prefix whose two-byte value is < 0xfd, a 0xfe prefix whose
four-byte value is ≤ 0xffff, and any 0xff prefix — and returns the
decoded little-endian value with consumed length 1, 3 or 5 for
canonical inputs whose value fits in a signed 32-bit integer; a 0xfe
prefix whose four-byte value is ≥ 2^31 is additionally rejected,
because the value is assembled into an int32_t and the wrapped
negative value fails the `v <= 0xffff` canonicality test. -/
theorem read_varint_spec :
    (∀ rest, read_varint (0xff :: rest) = .error .encodingErr) ∧
    (∀ b rest, b < 0xfd → read_varint (b :: rest) = .ok (1, (b : Int))) ∧
    (∀ b1 b2 rest, b1 + 256 * b2 < 0xfd →
      read_varint (0xfd :: b1 :: b2 :: rest) = .error .encodingErr) ∧
    (∀ b1 b2 rest, b1 < 256 → b2 < 256 → 0xfd ≤ b1 + 256 * b2 →
      read_varint (0xfd :: b1 :: b2 :: rest) =
        .ok (3, ((b1 + 256 * b2 : Nat) : Int))) ∧
    (∀ b1 b2 b3 b4 rest, b1 < 256 → b2 < 256 → b3 < 256 → b4 < 256 →
      (b1 + 256 * b2 + 2 ^ 16 * b3 + 2 ^ 24 * b4 ≤ 0xffff ∨
       2 ^ 31 ≤ b1 + 256 * b2 + 2 ^ 16 * b3 + 2 ^ 24 * b4) →
      read_varint (0xfe :: b1 :: b2 :: b3 :: b4 :: rest) =
        .error .encodingErr) ∧
    (∀ b1 b2 b3 b4 rest, b1 < 256 → b2 < 256 → b3 < 256 → b4 < 256 →
      0xffff < b1 + 256 * b2 + 2 ^ 16 * b3 + 2 ^ 24 * b4 →
      b1 + 256 * b2 + 2 ^ 16 * b3 + 2 ^ 24 * b4 < 2 ^ 31 →
      read_varint (0xfe :: b1 :: b2 :: b3 :: b4 :: rest) =
        .ok (5, ((b1 + 256 * b2 + 2 ^ 16 * b3 + 2 ^ 24 * b4 : Nat) : Int))) := by
  refine ⟨fun rest => by simp [read_varint], ?_, ?_, ?_, ?_, ?_⟩
  · intro b rest hb
    simp only [read_varint]
    rw [if_neg (by omega), if_neg (by omega), if_neg (by omega)]
  · intro b1 b2 rest hlt
    simp only [read_varint]
    rw [if_neg (by omega), if_neg (by omega), if_true]
    rw [if_pos (by exact_mod_cast hlt)]
  · intro b1 b2 rest h1 h2 hge
    simp only [read_varint]
    rw [if_neg (by omega), if_neg (by omega), if_true]
    rw [if_neg (by push_cast; omega)]
  · intro b1 b2 b3 b4 rest h1 h2 h3 h4 hcase
    have hn : b1 + 256 * b2 + 2 ^ 16 * b3 + 2 ^ 24 * b4 < 2 ^ 32 := by omega
    simp only [read_varint]
    rw [if_neg (by omega), if_true]
    rw [if_pos ?hc]
    case hc =>
      unfold toInt32
      rw [Nat.mod_eq_of_lt hn]
      rcases hcase with hsmall | hbig
      · rw [if_pos (by omega)]
        exact_mod_cast hsmall
      · rw [if_neg (by omega)]
        push_cast
        omega
  · intro b1 b2 b3 b4 rest h1 h2 h3 h4 hlo hhi
    have hn : b1 + 256 * b2 + 2 ^ 16 * b3 + 2 ^ 24 * b4 < 2 ^ 32 := by omega
    simp only [read_varint]
    rw [if_neg (by omega), if_true]
    rw [if_neg ?hc]
    · unfold toInt32
      rw [Nat.mod_eq_of_lt hn, if_pos (by omega)]
    case hc =>
      unfold toInt32
      rw [Nat.mod_eq_of_lt hn, if_pos (by omega)]
      push_cast
      omega

/-- C9 witness: each case of read_varint_spec at a concrete input. -/
theorem read_varint_spec_witness :
    read_varint [0xff] = .error .encodingErr ∧
    read_varint [7, 9] = .ok (1, (7 : Int)) ∧
    read_varint [0xfd, 0xfc, 0] = .error .encodingErr ∧
    read_varint [0xfd, 0xfd, 0] = .ok (3, (0xfd : Int)) ∧
    read_varint [0xfe, 0xff, 0xff, 0, 0] = .error .encodingErr ∧
    read_varint [0xfe, 0, 0, 1, 0] = .ok (5, (0x10000 : Int)) :=
  ⟨read_varint_spec.1 [],
   read_varint_spec.2.1 7 [9] (by decide),
   read_varint_spec.2.2.1 0xfc 0 [] (by decide),
   read_varint_spec.2.2.2.1 0xfd 0 [] (by decide) (by decide) (by decide),
   read_varint_spec.2.2.2.2.1 0xff 0xff 0 0 [] (by decide) (by decide)
     (by decide) (by decide) (Or.inl (by decide)),
   read_varint_spec.2.2.2.2.2 0 0 1 0 [] (by decide) (by decide) (by decide)
     (by decide) (by decide) (by decide)⟩

/-- C9 counterexample: the input fe 00 00 00 80 decodes to
0x80000000 > 0xffff, canonical per the claim, yet read_varint rejects
it (int32 sign overflow), so not every canonical input is decoded. -/
theorem read_varint_claim_false :
    read_varint [0xfe, 0, 0, 0, 0x80] = .error .encodingErr ∧
    0xffff < (0 + 256 * 0 + 2 ^ 16 * 0 + 2 ^ 24 * 128 : Nat) := by
  exact ⟨rfl, by decide⟩

/-! ## Compressed short-node keys -/

/-- Nibble j of the expansion of a byte string: the high then low
half of byte j/2, with the terminator nibble 16 past the data. -/
def nib_at (data : List Nat) (j : Nat) : Nat :=
  if j < 2 * data.length then
    (if j % 2 = 0 then data.getD (j / 2) 0 / 16 else data.getD (j / 2) 0 % 16)
  else 16

theorem to_nibbles_cons (b : Nat) (l : List Nat) :
    to_nibbles (b :: l) = b / 16 :: b % 16 :: to_nibbles l := by
  simp [to_nibbles]

theorem to_nibbles_length (data : List Nat) :
    (to_nibbles data).length = 2 * data.length + 1 := by
  induction data with
  | nil => simp [to_nibbles]
  | cons b l ih =>
    rw [to_nibbles_cons]
    simp only [List.length_cons, ih]
    omega

theorem nib_at_cons (b : Nat) (l : List Nat) (j : Nat) :
    nib_at (b :: l) (j + 2) = nib_at l j := by
  unfold nib_at
  have h2 : (j + 2) / 2 = j / 2 + 1 := by omega
  have h3 : (j + 2) % 2 = j % 2 := by omega
  rw [h2, h3]
  simp only [List.length_cons, List.getD_cons_succ]
  by_cases h : j < 2 * l.length
  · rw [if_pos h, if_pos (by omega)]
  · rw [if_neg h, if_neg (by omega)]

theorem to_nibbles_getD (data : List Nat) (j : Nat)
    (hj : j < 2 * data.length + 1) :
    (to_nibbles data).getD j 0 = nib_at data j := by
  induction data generalizing j with
  | nil =>
    simp only [List.length_nil, Nat.mul_zero, Nat.zero_add, Nat.lt_one_iff] at hj
    subst hj
    simp [to_nibbles, nib_at]
  | cons b l ih =>
    match j with
    | 0 =>
      rw [to_nibbles_cons]
      simp [nib_at]
    | 1 =>
      rw [to_nibbles_cons]
      simp only [List.getD_cons_succ, List.getD_cons_zero]
      unfold nib_at
      rw [if_pos (by simp only [List.length_cons]; omega)]
      simp
    | j + 2 =>
      rw [to_nibbles_cons]
      simp only [List.getD_cons_succ]
      rw [ih j (by simp only [List.length_cons] at hj; omega)]
      exact (nib_at_cons b l j).symm

theorem to_nibbles_eq_range_map (data : List Nat) :
    to_nibbles data = (List.range (2 * data.length + 1)).map (nib_at data) := by
  apply List.ext_getElem
  · simp [to_nibbles_length]
  · intro i h1 h2
    rw [List.getElem_map, List.getElem_range]
    rw [← List.getD_eq_getElem (to_nibbles data) 0 h1]
    exact to_nibbles_getD data i (by rw [to_nibbles_length] at h1; omega)

theorem range_map_slice (f : Nat → Nat) (N pos k : Nat) (h : pos + k ≤ N) :
    (((List.range N).map f).drop pos).take k =
      (List.range k).map (fun i => f (pos + i)) := by
  rw [← List.map_drop]
  have hdrop : (List.range N).drop pos =
      (List.range (N - pos)).map (fun x => pos + x) := by
    conv_lhs => rw [show N = pos + (N - pos) from by omega]
    rw [List.range_add, List.drop_left' (by simp)]
  rw [hdrop, List.map_map, ← List.map_take, List.take_range,
    show min k (N - pos) = k from by omega]
  rfl

/-- C8 amended: for a non-empty compressed key of b bytes, the
decompressed key is the slice of the nibble expansion that starts at
nibble offset 1 if bit 0 of the first nibble is set (else 2) and ends
at the (exclusive) nibble bound 2·b + 1 if bit 1 of the first nibble
is set (else 2·b) — one more than the claimed 2·b and 2·b − 1, so
the bound with bit 1 set reaches the terminator nibble. -/
theorem decompress_spec (d : Nat) (ds : List Nat) (pos eff : Nat)
    (hpos : pos = if d / 16 % 2 = 1 then 1 else 2)
    (heff : eff = if d / 16 / 2 % 2 = 1 then 2 * (ds.length + 1) + 1
                  else 2 * (ds.length + 1)) :
    decompress (d :: ds) =
      (List.range (eff - pos)).map (fun i => nib_at (d :: ds) (pos + i)) := by
  have hn : (to_nibbles (d :: ds)).length = 2 * (ds.length + 1) + 1 := by
    rw [to_nibbles_length]
    simp
  have e1 : (if d / 16 % 2 = 1 then 1 else 2) = pos := hpos.symm
  have e2 : (((to_nibbles (d :: ds)).length - 1) +
      (if d / 16 / 2 % 2 = 1 then 1 else 0)) -
      (if d / 16 % 2 = 1 then 1 else 2) = eff - pos := by
    rw [hn, hpos, heff]
    by_cases hb0 : d / 16 % 2 = 1 <;> by_cases hb1 : d / 16 / 2 % 2 = 1 <;>
      simp [hb0, hb1]
  have heq : decompress (d :: ds) =
      ((to_nibbles (d :: ds)).drop pos).take (eff - pos) := by
    show ((to_nibbles (d :: ds)).drop (if d / 16 % 2 = 1 then 1 else 2)).take
        ((((to_nibbles (d :: ds)).length - 1) +
          (if d / 16 / 2 % 2 = 1 then 1 else 0)) -
         (if d / 16 % 2 = 1 then 1 else 2)) =
      ((to_nibbles (d :: ds)).drop pos).take (eff - pos)
    rw [e2, e1]
  rw [heq, to_nibbles_eq_range_map]
  have hk : pos + (eff - pos) ≤ 2 * (d :: ds).length + 1 := by
    simp only [List.length_cons, hpos, heff]
    split <;> split <;> omega
  exact range_map_slice (nib_at (d :: ds)) _ pos (eff - pos) hk

/-- C8 witness: decompress_spec at the concrete compressed key
20 00 (first nibble 2: terminator flag set, odd flag clear), whose
decompressed key is nibbles 2..4 of the expansion. -/
theorem decompress_spec_witness :
    decompress [0x20, 0] =
      (List.range ((2 * 2 + 1) - 2)).map (fun i => nib_at [0x20, 0] (2 + i)) ∧
    decompress [0x20, 0] = [0, 0, 16] :=
  ⟨decompress_spec 0x20 [0] 2 (2 * 2 + 1) (by decide) (by decide),
   by decide⟩

/-- C8 counterexample: on the one-byte compressed key 20 the claimed
effective length 2·b = 2 with start offset 2 would select the empty
slice of the nibble expansion, but decompress returns the terminator
nibble [16]. -/
theorem decompress_claim_false :
    decompress [0x20] ≠ ((to_nibbles [0x20]).drop 2).take (2 * 1 - 2) ∧
    decompress [0x20] = [16] := by
  exact ⟨by decide, by decide⟩

/-! ## Reverse byte compare and PoW classification -/

theorem beNat_foldl (l : List Nat) (acc : Nat) :
    l.foldl (fun a b => a * 256 + b) acc = acc * 256 ^ l.length + beNat l := by
  induction l generalizing acc with
  | nil => simp [beNat]
  | cons x xs ih =>
    simp only [List.foldl_cons, List.length_cons]
    rw [ih (acc * 256 + x), show beNat (x :: xs) = xs.foldl (fun a b => a * 256 + b) x from by
      simp [beNat], ih x]
    ring

theorem beNat_cons (a : Nat) (l : List Nat) :
    beNat (a :: l) = a * 256 ^ l.length + beNat l := by
  have : beNat (a :: l) = l.foldl (fun x b => x * 256 + b) a := by simp [beNat]
  rw [this, beNat_foldl]

theorem beNat_lt_pow (l : List Nat) (h : ∀ a ∈ l, a < 256) :
    beNat l < 256 ^ l.length := by
  induction l with
  | nil => simp [beNat]
  | cons a xs ih =>
    have ha := h a (by simp)
    have hxs := ih (fun v hv => h v (by simp [hv]))
    rw [beNat_cons, List.length_cons]
    calc a * 256 ^ xs.length + beNat xs < a * 256 ^ xs.length + 256 ^ xs.length := by omega
      _ = (a + 1) * 256 ^ xs.length := by ring
      _ ≤ 256 * 256 ^ xs.length := Nat.mul_le_mul_right _ (by omega)
      _ = 256 ^ (xs.length + 1) := by ring

theorem rcmp_go_pos (x y : List Nat) (hlen : x.length = y.length)
    (hx : ∀ a ∈ x, a < 256) (hy : ∀ a ∈ y, a < 256) :
    rcmp_go (x.zip y) > 0 ↔ beNat x > beNat y := by
  induction x generalizing y with
  | nil =>
    cases y with
    | nil => simp [rcmp_go, beNat]
    | cons b ys => simp at hlen
  | cons a xs ih =>
    cases y with
    | nil => simp at hlen
    | cons b ys =>
      have hlen' : xs.length = ys.length := by simpa using hlen
      have hxa : a < 256 := hx a (by simp)
      have hyb : b < 256 := hy b (by simp)
      have hxs : ∀ v ∈ xs, v < 256 := fun v hv => hx v (by simp [hv])
      have hys : ∀ v ∈ ys, v < 256 := fun v hv => hy v (by simp [hv])
      have h1 : beNat xs < 256 ^ xs.length := beNat_lt_pow xs hxs
      have h2 : beNat ys < 256 ^ ys.length := beNat_lt_pow ys hys
      rw [List.zip_cons_cons, rcmp_go, beNat_cons, beNat_cons, ← hlen']
      by_cases hab : a < b
      · rw [if_pos hab]
        constructor
        · intro hfalse
          exact absurd hfalse (by decide)
        · intro hgt
          exfalso
          have hlt : a * 256 ^ xs.length + beNat xs < b * 256 ^ xs.length + beNat ys := by
            calc a * 256 ^ xs.length + beNat xs < a * 256 ^ xs.length + 256 ^ xs.length := by omega
              _ = (a + 1) * 256 ^ xs.length := by ring
              _ ≤ b * 256 ^ xs.length := Nat.mul_le_mul_right _ (by omega)
              _ ≤ b * 256 ^ xs.length + beNat ys := Nat.le_add_right _ _
          omega
      · by_cases hba : b < a
        · rw [if_neg hab, if_pos hba]
          constructor
          · intro _
            calc b * 256 ^ xs.length + beNat ys < b * 256 ^ xs.length + 256 ^ xs.length := by
                  rw [hlen']; omega
              _ = (b + 1) * 256 ^ xs.length := by ring
              _ ≤ a * 256 ^ xs.length := Nat.mul_le_mul_right _ (by omega)
              _ ≤ a * 256 ^ xs.length + beNat xs := Nat.le_add_right _ _
          · intro _
            decide
        · have hba' : a = b := by omega
          subst hba'
          rw [if_neg hab, if_neg hba]
          rw [ih ys hlen' hxs hys]
          omega

theorem pow_write_loop_wf (is : List Nat) (m : Nat) (t : List Nat)
    (hlen : t.length = 32) (hb : ∀ x ∈ t, x < 256) :
    (pow_write_loop is m t).1.length = 32 ∧
    ∀ x ∈ (pow_write_loop is m t).1, x < 256 := by
  induction is generalizing m t with
  | nil => exact ⟨hlen, hb⟩
  | cons i is ih =>
    rw [pow_write_loop]
    split
    · exact ⟨hlen, hb⟩
    · apply ih
      · simp [hlen]
      · intro x hx
        rcases List.mem_or_eq_of_mem_set hx with h1 | h2
        · exact hb x h1
        · subst h2
          exact Nat.mod_lt _ (by norm_num)

theorem pow_to_target_wf (bits : Nat) (t : List Nat)
    (h : hsk_pow_to_target bits = some t) :
    t.length = 32 ∧ ∀ x ∈ t, x < 256 := by
  unfold hsk_pow_to_target at h
  dsimp only at h
  split at h
  · exact absurd h (by simp)
  split at h
  · exact absurd h (by simp)
  split at h
  all_goals
    split at h
    · exact absurd h (by simp)
    · have ht := (Option.some.inj h).symm
      subst ht
      refine pow_write_loop_wf _ _ _ (by simp) ?_
      intro x hx
      simp at hx
      omega

theorem rcmp_pos_iff (a b : List Nat) (ha : a.length = 32) (hb : b.length = 32)
    (hxa : ∀ x ∈ a, x < 256) (hxb : ∀ x ∈ b, x < 256) :
    rcmp a b 32 > 0 ↔ leNat a > beNat b := by
  unfold rcmp leNat
  have ta : a.take 32 = a := by rw [← ha]; exact List.take_length a
  have tb : b.take 32 = b := by rw [← hb]; exact List.take_length b
  rw [ta, tb]
  apply rcmp_go_pos
  · simp [ha, hb]
  · intro x hx
    exact hxa x (List.mem_reverse.mp hx)
  · exact hxb

/-- C3: hsk_header_verify_pow returns NEG_TARGET exactly when
hsk_pow_to_target rejects the bits field; otherwise it hashes the
serialized solution words with BLAKE2b and returns HIGH_HASH exactly
when the reverse byte compare finds the solution hash (read
little-endian) strictly greater than the target (read big-endian);
otherwise the Cuckoo verifier's return code is propagated unchanged.
The hypotheses are BLAKE2b's contract: 32 bytes of output. -/
theorem verify_pow_classification (B : List Nat → List Nat)
    (CK : List Nat → List Nat → Int) (hdr : HskHeader)
    (hB32 : ∀ l, (B l).length = 32) (hBb : ∀ l x, x ∈ B l → x < 256) :
    (hsk_header_verify_pow B CK hdr = .negTarget ↔
      hsk_pow_to_target hdr.bits = none) ∧
    (∀ t, hsk_pow_to_target hdr.bits = some t →
      ((hsk_header_verify_pow B CK hdr = .highHash ↔
        leNat (B (encode_sol hdr.sol hdr.sol_size)) > beNat t) ∧
       (leNat (B (encode_sol hdr.sol hdr.sol_size)) ≤ beNat t →
        hsk_header_verify_pow B CK hdr =
          .cuckoo (CK (hsk_header_encode_pre hdr)
            (hdr.sol.take hdr.sol_size))))) := by
  constructor
  · constructor
    · intro hneg
      by_contra hne
      obtain ⟨t, ht⟩ := Option.ne_none_iff_exists'.mp hne
      unfold hsk_header_verify_pow at hneg
      rw [ht] at hneg
      dsimp only at hneg
      split at hneg <;> simp at hneg
    · intro hnone
      unfold hsk_header_verify_pow
      rw [hnone]
  · intro t ht
    obtain ⟨htl, htb⟩ := pow_to_target_wf hdr.bits t ht
    have hiff := rcmp_pos_iff (B (encode_sol hdr.sol hdr.sol_size)) t
      (hB32 _) htl (fun x hx => hBb _ x hx) htb
    constructor
    · unfold hsk_header_verify_pow
      rw [ht]
      dsimp only
      by_cases hc : rcmp (B (encode_sol hdr.sol hdr.sol_size)) t 32 > 0
      · rw [if_pos hc]
        exact ⟨fun _ => hiff.mp hc, fun _ => rfl⟩
      · rw [if_neg hc]
        constructor
        · intro hfalse
          exact absurd hfalse (by simp)
        · intro hgt
          exact absurd (hiff.mpr hgt) hc
    · intro hle
      unfold hsk_header_verify_pow
      rw [ht]
      dsimp only
      rw [if_neg (fun hgt => absurd (hiff.mp hgt) (by omega))]

/-- C3 witness: verify_pow_classification at a concrete header (bits
0x03123456, empty solution), a constant BLAKE2b stub and a Cuckoo
verifier returning 7: the Cuckoo code is propagated unchanged. -/
theorem verify_pow_classification_witness :
    hsk_header_verify_pow (fun _ => List.replicate 32 0) (fun _ _ => 7)
      { version := 0, prev_block := List.replicate 32 0,
        merkle_root := List.replicate 32 0, witness_root := List.replicate 32 0,
        trie_root := List.replicate 32 0, time := 0, bits := 0x03123456,
        nonce := List.replicate 16 0, sol_size := 0, sol := [] } = .cuckoo 7 :=
  ((verify_pow_classification (fun _ => List.replicate 32 0) (fun _ _ => 7)
      { version := 0, prev_block := List.replicate 32 0,
        merkle_root := List.replicate 32 0, witness_root := List.replicate 32 0,
        trie_root := List.replicate 32 0, time := 0, bits := 0x03123456,
        nonce := List.replicate 16 0, sol_size := 0, sol := [] }
      (fun _ => by simp) (fun _ x hx => by simp at hx; omega)).2
    (List.replicate 29 0 ++ [0x12, 0x34, 0x56]) (by decide)).2 (by decide)

/-! ## Proof walker: value emission and termination -/

theorem verify_loop_some_ok (B : List Nat → List Nat) (k : List Nat) :
    ∀ (blobs : List (List Nat)) (h : List Nat) (p : Int) (v : List Nat),
    (verify_loop B k blobs h p).2 = some v →
    (verify_loop B k blobs h p).1 = .proofOk := by
  intro blobs
  induction blobs with
  | nil =>
    intro h p v hv
    simp [verify_loop] at hv
  | cons c rest ih =>
    intro h p v hv
    rw [verify_loop] at hv ⊢
    by_cases hbc : B c ≠ h
    · rw [if_pos hbc] at hv
      exact absurd hv (by simp)
    · rw [if_neg hbc] at hv ⊢
      cases hparse : hsk_parse_node c with
      | error e =>
        rw [hparse] at hv
        dsimp only at hv
        exact absurd hv (by simp)
      | ok node =>
        rw [hparse] at hv
        dsimp only at hv ⊢
        rcases hnc : next_child node k p with ⟨st, node', p'⟩
        rw [hnc] at hv
        cases st
        -- success: case on the reached node
        · cases node'
          · by_cases hre : rest.isEmpty <;> simp [hre] at hv
          · dsimp only at hv ⊢
            exact ih _ p' v hv
          · exact absurd hv (by simp)
          · exact absurd hv (by simp)
          · by_cases hre : rest.isEmpty <;> simp [hre] at hv ⊢
        all_goals simp at hv

/-- C1: hsk_verify_proof emits a value through its out-parameters only
on PROOF_OK (the absence outcome and every error leave the NULL/0
written on entry), and a blob whose hash differs from the currently
expected commitment makes the loop return HASH_MISMATCH immediately
with no value. -/
theorem verify_proof_value_only_ok (B : List Nat → List Nat)
    (root key : List Nat) (nodes : List (List Nat)) (hk : key.length = 32) :
    (∀ v, (hsk_verify_proof B root key nodes).2 = some v →
      (hsk_verify_proof B root key nodes).1 = .proofOk) ∧
    (∀ k c rest h p, B c ≠ h →
      verify_loop B k (c :: rest) h p = (.hashMismatch, none)) ∧
    (∀ k c h p v, (verify_loop B k [c] h p).2 = some v →
      B c = h ∧ ∃ node p', hsk_parse_node c = .ok node ∧
        next_child node k p = (.success, .valuenode v, p')) := by
  refine ⟨?_, ?_, ?_⟩
  · intro v hv
    exact verify_loop_some_ok B _ nodes root 0 v hv
  · intro k c rest h p hm
    rw [verify_loop, if_pos hm]
  · intro k c h p v hv
    rw [verify_loop] at hv
    by_cases hbc : B c ≠ h
    · rw [if_pos hbc] at hv
      exact absurd hv (by simp)
    · rw [if_neg hbc] at hv
      refine ⟨by tauto, ?_⟩
      cases hparse : hsk_parse_node c with
      | error e =>
        rw [hparse] at hv
        dsimp only at hv
        exact absurd hv (by simp)
      | ok node =>
        rw [hparse] at hv
        dsimp only at hv
        rcases hnc : next_child node k p with ⟨st, node', p'⟩
        rw [hnc] at hv
        cases st
        · cases node'
          · simp at hv
          · simp [verify_loop] at hv
          · simp at hv
          · simp at hv
          · refine ⟨node, p', rfl, ?_⟩
            simp at hv
            rw [← hv]
            exact hnc
        all_goals simp at hv

/-- A complete single-node inclusion proof used as a concrete test
vector: a SHORT node covering all 65 key nibbles of the zero key with
an embedded VALUE child. -/
def demoPayload : List Nat := [222, 173]

/-- The serialized demo node: SHORT tag, varint 33, compressed key
20 00…00 (terminator flag set), VALUE tag, varint 2, payload. -/
def demoBlob : List Nat :=
  [2, 33, 32] ++ List.replicate 32 0 ++ [4, 2] ++ demoPayload

/-- The trusted root of the demo proof (the demo BLAKE2b stub hashes
every blob to this value). -/
def demoRoot : List Nat := List.replicate 32 7

/-- A BLAKE2b stub mapping every blob to demoRoot. -/
def demoB : List Nat → List Nat := fun _ => demoRoot

/-- The 32-byte zero key. -/
def demoKey : List Nat := List.replicate 32 0

/-- The parse result of demoBlob. -/
def demoNode : HNode :=
  .shortnode (List.replicate 64 0 ++ [16]) (.valuenode demoPayload)

/-- C1 witness: the demo proof emits its value with PROOF_OK, and a
mismatching first blob yields HASH_MISMATCH with no value. -/
theorem verify_proof_value_only_ok_witness :
    (hsk_verify_proof demoB demoRoot demoKey [demoBlob]).2 = some demoPayload ∧
    (hsk_verify_proof demoB demoRoot demoKey [demoBlob]).1 = .proofOk ∧
    verify_loop demoB (to_nibbles demoKey) [demoBlob] (List.replicate 32 9) 0 =
      (.hashMismatch, none) ∧
    (demoB demoBlob = demoRoot ∧ ∃ node p', hsk_parse_node demoBlob = .ok node ∧
      next_child node (to_nibbles demoKey) 0 =
        (.success, .valuenode demoPayload, p')) :=
  ⟨rfl,
   (verify_proof_value_only_ok demoB demoRoot demoKey [demoBlob]
     (by simp [demoKey])).1 demoPayload rfl,
   (verify_proof_value_only_ok demoB demoRoot demoKey [demoBlob]
     (by simp [demoKey])).2.1 (to_nibbles demoKey) demoBlob []
     (List.replicate 32 9) 0 (by decide),
   (verify_proof_value_only_ok demoB demoRoot demoKey [demoBlob]
     (by simp [demoKey])).2.2 (to_nibbles demoKey) demoBlob demoRoot 0
     demoPayload rfl⟩

/-- C4: the walker classifies termination against the remaining blob
list — an empty node list returns NO_RESULT for any key; reaching an
absence (next_child sets the node to NULL) or a VALUE node while
further blobs remain returns EARLY_END; and exhausting the blob list
without terminating returns NO_RESULT. -/
theorem verify_proof_termination (B : List Nat → List Nat)
    (root key : List Nat) (hk : key.length = 32) :
    hsk_verify_proof B root key [] = (.noResult, none) ∧
    (∀ k h p, verify_loop B k [] h p = (.noResult, none)) ∧
    (∀ k c rest h p node p', B c = h → hsk_parse_node c = .ok node →
      next_child node k p = (.success, .nullnode, p') → rest ≠ [] →
      verify_loop B k (c :: rest) h p = (.earlyEnd, none)) ∧
    (∀ k c rest h p node w p', B c = h → hsk_parse_node c = .ok node →
      next_child node k p = (.success, .valuenode w, p') → rest ≠ [] →
      verify_loop B k (c :: rest) h p = (.earlyEnd, none)) := by
  refine ⟨rfl, fun k h p => rfl, ?_, ?_⟩
  · intro k c rest h p node p' hbc hparse hnc hne
    rw [verify_loop, if_neg (by simp [hbc]), hparse]
    dsimp only
    rw [hnc]
    cases rest with
    | nil => exact absurd rfl hne
    | cons c2 r2 => rfl
  · intro k c rest h p node w p' hbc hparse hnc hne
    rw [verify_loop, if_neg (by simp [hbc]), hparse]
    dsimp only
    rw [hnc]
    cases rest with
    | nil => exact absurd rfl hne
    | cons c2 r2 => rfl

/-- C4 witness: the empty proof returns NO_RESULT; an absence (NULL
blob) and a VALUE reached with one blob still remaining both return
EARLY_END. -/
theorem verify_proof_termination_witness :
    hsk_verify_proof demoB demoRoot demoKey [] = (.noResult, none) ∧
    verify_loop demoB (to_nibbles demoKey) [[0], [0]] demoRoot 0 =
      (.earlyEnd, none) ∧
    verify_loop demoB (to_nibbles demoKey) [demoBlob, [0]] demoRoot 0 =
      (.earlyEnd, none) :=
  ⟨(verify_proof_termination demoB demoRoot demoKey (by simp [demoKey])).1,
   (verify_proof_termination demoB demoRoot demoKey
      (by simp [demoKey])).2.2.1 (to_nibbles demoKey) [0] [[0]] demoRoot 0
      .nullnode (-1) rfl rfl rfl (by simp),
   (verify_proof_termination demoB demoRoot demoKey
      (by simp [demoKey])).2.2.2 (to_nibbles demoKey) demoBlob [[0]] demoRoot 0
      demoNode demoPayload (-1) rfl rfl rfl (by simp)⟩

/-! ## Fuel sufficiency: the fuel guards are unreachable -/

theorem hnodeSize_pos (n : HNode) : 0 < hnodeSize n := by
  cases n <;> simp [hnodeSize]

theorem hnodeListSize_pos (cs : List HNode) : 0 < hnodeSize.hnodeListSize cs := by
  induction cs with
  | nil => simp [hnodeSize.hnodeListSize]
  | cons c cs ih =>
    have := hnodeSize_pos c
    simp only [hnodeSize.hnodeListSize]
    omega

theorem hnodeSize_getD_le (cs : List HNode) (i : Nat) :
    hnodeSize (cs.getD i .nullnode) ≤ hnodeSize.hnodeListSize cs := by
  induction cs generalizing i with
  | nil =>
    cases i <;> simp [List.getD, hnodeSize, hnodeSize.hnodeListSize]
  | cons c cs ih =>
    cases i with
    | zero =>
      have := hnodeListSize_pos cs
      simp only [List.getD_cons_zero, hnodeSize.hnodeListSize]
      omega
    | succ j =>
      have := ih j
      have := hnodeSize_pos c
      simp only [List.getD_cons_succ, hnodeSize.hnodeListSize]
      omega

/-- next_child_go is independent of its fuel argument as soon as the
fuel covers the node's structural size, so the fuel-0 guard in
next_child (which passes hnodeSize node) is unreachable. -/
theorem next_child_go_fuel_irrel : ∀ f g (node : HNode) (k : List Nat) (p : Int),
    hnodeSize node ≤ f → hnodeSize node ≤ g →
    next_child_go f node k p = next_child_go g node k p := by
  intro f
  induction f with
  | zero =>
    intro g node k p hf hg
    exact absurd hf (by have := hnodeSize_pos node; omega)
  | succ f ih =>
    intro g node k p hf hg
    cases g with
    | zero => exact absurd hg (by have := hnodeSize_pos node; omega)
    | succ g =>
      show (if 65 - p > 0 then _ else _) = (if 65 - p > 0 then _ else _)
      by_cases hp : 65 - p > 0
      · rw [if_pos hp, if_pos hp]
        cases node with
        | nullnode => rfl
        | hashnode d => rfl
        | valuenode v => rfl
        | shortnode key child =>
          dsimp only
          by_cases hkey : 65 - p < (key.length : Int) ∨
              (k.drop p.toNat).take key.length ≠ key
          · rw [if_pos hkey, if_pos hkey]
          · rw [if_neg hkey, if_neg hkey]
            exact ih g child k (p + key.length)
              (by simp [hnodeSize] at hf; omega)
              (by simp [hnodeSize] at hg; omega)
        | fullnode cs =>
          dsimp only
          have hlt := hnodeSize_getD_le cs (k.getD p.toNat 0)
          exact ih g (cs.getD (k.getD p.toNat 0) .nullnode) k (p + 1)
            (by simp [hnodeSize] at hf; omega)
            (by simp [hnodeSize] at hg; omega)
      · rw [if_neg hp, if_neg hp]

theorem read_varbytes_rest_le (d out rest : List Nat)
    (h : read_varbytes d = .ok (out, rest)) : rest.length ≤ d.length := by
  unfold read_varbytes at h
  split at h
  · exact absurd h (by simp)
  · dsimp only at h
    split at h
    · exact absurd h (by simp)
    · simp only [Except.ok.injEq, Prod.mk.injEq] at h
      obtain ⟨-, h2⟩ := h
      rw [← h2]
      simp

/-- A successful parse strictly consumes input (at least the tag
byte), at every fuel level. -/
theorem parse_go_rest_lt : ∀ f (data : List Nat) (node : HNode) (rest : List Nat),
    parse_go f data = .ok (node, rest) → rest.length < data.length := by
  intro f
  induction f with
  | zero =>
    intro data node rest h
    exact absurd h (by simp [parse_go])
  | succ f ih =>
    intro data node rest h
    rw [parse_go.eq_def] at h
    cases data with
    | nil => exact absurd h (by simp)
    | cons t d =>
      dsimp only at h
      by_cases h0 : t = HSK_NULLNODE
      · rw [if_pos h0] at h
        simp only [Except.ok.injEq, Prod.mk.injEq] at h
        obtain ⟨-, h2⟩ := h
        subst h2
        simp
      rw [if_neg h0] at h
      by_cases h1 : t = HSK_HASHNODE
      · rw [if_pos h1] at h
        split at h
        · exact absurd h (by simp)
        · simp only [Except.ok.injEq, Prod.mk.injEq] at h
          obtain ⟨-, h2⟩ := h
          subst h2
          simp
          omega
      rw [if_neg h1] at h
      by_cases h2 : t = HSK_SHORTNODE
      · rw [if_pos h2] at h
        rcases hrv : read_varbytes d with e | ⟨out, rest1⟩
        · rw [hrv] at h
          exact absurd h (by simp)
        rw [hrv] at h
        dsimp only at h
        rcases hpc : parse_go f rest1 with e | ⟨child, rest2⟩
        · rw [hpc] at h
          exact absurd h (by simp)
        rw [hpc] at h
        dsimp only at h
        simp only [Except.ok.injEq, Prod.mk.injEq] at h
        obtain ⟨-, h2⟩ := h
        subst h2
        have k1 := ih rest1 child rest2 hpc
        have k2 := read_varbytes_rest_le d out rest1 hrv
        simp only [List.length_cons]
        omega
      rw [if_neg h2] at h
      by_cases h3 : t = HSK_FULLNODE
      · rw [if_pos h3] at h
        rcases hp0 : parse_go f d with e | ⟨c0, d0⟩
        · rw [hp0] at h
          exact absurd h (by simp)
        rw [hp0] at h
        dsimp only at h
        rcases hp1 : parse_go f d0 with e | ⟨c1, d1⟩
        · rw [hp1] at h
          exact absurd h (by simp)
        rw [hp1] at h
        dsimp only at h
        rcases hp2 : parse_go f d1 with e | ⟨c2, d2⟩
        · rw [hp2] at h
          exact absurd h (by simp)
        rw [hp2] at h
        dsimp only at h
        rcases hp3 : parse_go f d2 with e | ⟨c3, d3⟩
        · rw [hp3] at h
          exact absurd h (by simp)
        rw [hp3] at h
        dsimp only at h
        rcases hp4 : parse_go f d3 with e | ⟨c4, d4⟩
        · rw [hp4] at h
          exact absurd h (by simp)
        rw [hp4] at h
        dsimp only at h
        rcases hp5 : parse_go f d4 with e | ⟨c5, d5⟩
        · rw [hp5] at h
          exact absurd h (by simp)
        rw [hp5] at h
        dsimp only at h
        rcases hp6 : parse_go f d5 with e | ⟨c6, d6⟩
        · rw [hp6] at h
          exact absurd h (by simp)
        rw [hp6] at h
        dsimp only at h
        rcases hp7 : parse_go f d6 with e | ⟨c7, d7⟩
        · rw [hp7] at h
          exact absurd h (by simp)
        rw [hp7] at h
        dsimp only at h
        rcases hp8 : parse_go f d7 with e | ⟨c8, d8⟩
        · rw [hp8] at h
          exact absurd h (by simp)
        rw [hp8] at h
        dsimp only at h
        rcases hp9 : parse_go f d8 with e | ⟨c9, d9⟩
        · rw [hp9] at h
          exact absurd h (by simp)
        rw [hp9] at h
        dsimp only at h
        rcases hp10 : parse_go f d9 with e | ⟨c10, d10⟩
        · rw [hp10] at h
          exact absurd h (by simp)
        rw [hp10] at h
        dsimp only at h
        rcases hp11 : parse_go f d10 with e | ⟨c11, d11⟩
        · rw [hp11] at h
          exact absurd h (by simp)
        rw [hp11] at h
        dsimp only at h
        rcases hp12 : parse_go f d11 with e | ⟨c12, d12⟩
        · rw [hp12] at h
          exact absurd h (by simp)
        rw [hp12] at h
        dsimp only at h
        rcases hp13 : parse_go f d12 with e | ⟨c13, d13⟩
        · rw [hp13] at h
          exact absurd h (by simp)
        rw [hp13] at h
        dsimp only at h
        rcases hp14 : parse_go f d13 with e | ⟨c14, d14⟩
        · rw [hp14] at h
          exact absurd h (by simp)
        rw [hp14] at h
        dsimp only at h
        rcases hp15 : parse_go f d14 with e | ⟨c15, d15⟩
        · rw [hp15] at h
          exact absurd h (by simp)
        rw [hp15] at h
        dsimp only at h
        rcases hp16 : parse_go f d15 with e | ⟨c16, d16⟩
        · rw [hp16] at h
          exact absurd h (by simp)
        rw [hp16] at h
        dsimp only at h
        simp only [Except.ok.injEq, Prod.mk.injEq] at h
        obtain ⟨-, h2⟩ := h
        subst h2
        have k0 := ih d c0 d0 hp0
        have k1 := ih d0 c1 d1 hp1
        have k2 := ih d1 c2 d2 hp2
        have k3 := ih d2 c3 d3 hp3
        have k4 := ih d3 c4 d4 hp4
        have k5 := ih d4 c5 d5 hp5
        have k6 := ih d5 c6 d6 hp6
        have k7 := ih d6 c7 d7 hp7
        have k8 := ih d7 c8 d8 hp8
        have k9 := ih d8 c9 d9 hp9
        have k10 := ih d9 c10 d10 hp10
        have k11 := ih d10 c11 d11 hp11
        have k12 := ih d11 c12 d12 hp12
        have k13 := ih d12 c13 d13 hp13
        have k14 := ih d13 c14 d14 hp14
        have k15 := ih d14 c15 d15 hp15
        have k16 := ih d15 c16 d16 hp16
        simp only [List.length_cons]
        omega
      rw [if_neg h3] at h
      by_cases h4 : t = HSK_VALUENODE
      · rw [if_pos h4] at h
        rcases hrv : read_varbytes d with e | ⟨out, rest1⟩
        · rw [hrv] at h
          exact absurd h (by simp)
        rw [hrv] at h
        dsimp only at h
        simp only [Except.ok.injEq, Prod.mk.injEq] at h
        obtain ⟨-, h2⟩ := h
        subst h2
        have k2 := read_varbytes_rest_le d out rest1 hrv
        simp only [List.length_cons]
        omega
      rw [if_neg h4] at h
      exact absurd h (by simp)

/-- parse_go is independent of its fuel argument as soon as the fuel
exceeds the input length (each recursion level consumes at least the
tag byte), so the fuel-0 guard in hsk_parse_node (which passes
data.length + 1) is unreachable. -/
theorem parse_go_fuel_irrel : ∀ f g (data : List Nat),
    data.length < f → data.length < g → parse_go f data = parse_go g data := by
  intro f
  induction f with
  | zero =>
    intro g data hf hg
    exact absurd hf (by omega)
  | succ f ih =>
    intro g data hf hg
    cases g with
    | zero => exact absurd hg (by omega)
    | succ g =>
      rw [parse_go.eq_def, parse_go.eq_def]
      cases data with
      | nil => rfl
      | cons t d =>
        simp only [List.length_cons] at hf hg
        dsimp only
        by_cases h0 : t = HSK_NULLNODE
        · rw [if_pos h0, if_pos h0]
        rw [if_neg h0, if_neg h0]
        by_cases h1 : t = HSK_HASHNODE
        · rw [if_pos h1, if_pos h1]
        rw [if_neg h1, if_neg h1]
        by_cases h2 : t = HSK_SHORTNODE
        · rw [if_pos h2, if_pos h2]
          rcases hrv : read_varbytes d with e | ⟨out, rest1⟩
          · rfl
          dsimp only
          have hr1 := read_varbytes_rest_le d out rest1 hrv
          rw [ih g rest1 (by omega) (by omega)]
        rw [if_neg h2, if_neg h2]
        by_cases h3 : t = HSK_FULLNODE
        · rw [if_pos h3, if_pos h3]
          rw [ih g d (by omega) (by omega)]
          rcases hp0 : parse_go g d with e | ⟨c0, d0⟩
          · rfl
          dsimp only
          have r0 := parse_go_rest_lt g d c0 d0 hp0
          rw [ih g d0 (by omega) (by omega)]
          rcases hp1 : parse_go g d0 with e | ⟨c1, d1⟩
          · rfl
          dsimp only
          have r1 := parse_go_rest_lt g d0 c1 d1 hp1
          rw [ih g d1 (by omega) (by omega)]
          rcases hp2 : parse_go g d1 with e | ⟨c2, d2⟩
          · rfl
          dsimp only
          have r2 := parse_go_rest_lt g d1 c2 d2 hp2
          rw [ih g d2 (by omega) (by omega)]
          rcases hp3 : parse_go g d2 with e | ⟨c3, d3⟩
          · rfl
          dsimp only
          have r3 := parse_go_rest_lt g d2 c3 d3 hp3
          rw [ih g d3 (by omega) (by omega)]
          rcases hp4 : parse_go g d3 with e | ⟨c4, d4⟩
          · rfl
          dsimp only
          have r4 := parse_go_rest_lt g d3 c4 d4 hp4
          rw [ih g d4 (by omega) (by omega)]
          rcases hp5 : parse_go g d4 with e | ⟨c5, d5⟩
          · rfl
          dsimp only
          have r5 := parse_go_rest_lt g d4 c5 d5 hp5
          rw [ih g d5 (by omega) (by omega)]
          rcases hp6 : parse_go g d5 with e | ⟨c6, d6⟩
          · rfl
          dsimp only
          have r6 := parse_go_rest_lt g d5 c6 d6 hp6
          rw [ih g d6 (by omega) (by omega)]
          rcases hp7 : parse_go g d6 with e | ⟨c7, d7⟩
          · rfl
          dsimp only
          have r7 := parse_go_rest_lt g d6 c7 d7 hp7
          rw [ih g d7 (by omega) (by omega)]
          rcases hp8 : parse_go g d7 with e | ⟨c8, d8⟩
          · rfl
          dsimp only
          have r8 := parse_go_rest_lt g d7 c8 d8 hp8
          rw [ih g d8 (by omega) (by omega)]
          rcases hp9 : parse_go g d8 with e | ⟨c9, d9⟩
          · rfl
          dsimp only
          have r9 := parse_go_rest_lt g d8 c9 d9 hp9
          rw [ih g d9 (by omega) (by omega)]
          rcases hp10 : parse_go g d9 with e | ⟨c10, d10⟩
          · rfl
          dsimp only
          have r10 := parse_go_rest_lt g d9 c10 d10 hp10
          rw [ih g d10 (by omega) (by omega)]
          rcases hp11 : parse_go g d10 with e | ⟨c11, d11⟩
          · rfl
          dsimp only
          have r11 := parse_go_rest_lt g d10 c11 d11 hp11
          rw [ih g d11 (by omega) (by omega)]
          rcases hp12 : parse_go g d11 with e | ⟨c12, d12⟩
          · rfl
          dsimp only
          have r12 := parse_go_rest_lt g d11 c12 d12 hp12
          rw [ih g d12 (by omega) (by omega)]
          rcases hp13 : parse_go g d12 with e | ⟨c13, d13⟩
          · rfl
          dsimp only
          have r13 := parse_go_rest_lt g d12 c13 d13 hp13
          rw [ih g d13 (by omega) (by omega)]
          rcases hp14 : parse_go g d13 with e | ⟨c14, d14⟩
          · rfl
          dsimp only
          have r14 := parse_go_rest_lt g d13 c14 d14 hp14
          rw [ih g d14 (by omega) (by omega)]
          rcases hp15 : parse_go g d14 with e | ⟨c15, d15⟩
          · rfl
          dsimp only
          have r15 := parse_go_rest_lt g d14 c15 d15 hp15
          rw [ih g d15 (by omega) (by omega)]
        rw [if_neg h3, if_neg h3]
